import Mathlib

/- Shallow embedding of the reconciliation / batching / normalization core of
the repository (seller.py and market.py).  Raw feed fields are modelled as
strings, matching the data model: an inventory record carries a stringified
code, a raw quantity string and a raw price string.  Python exceptions are
modelled by `Except String`; Python in-place mutation of the `offer_ids`
list is modelled by returning the final list alongside the result. -/

instance {ε α : Type} [DecidableEq ε] [DecidableEq α] : DecidableEq (Except ε α) :=
  fun x y =>
    match x, y with
    | .error e, .error f =>
        if h : e = f then isTrue (by rw [h]) else isFalse (fun hh => h (by injection hh))
    | .ok a, .ok b =>
        if h : a = b then isTrue (by rw [h]) else isFalse (fun hh => h (by injection hh))
    | .error _, .ok _ => isFalse (fun hh => Except.noConfusion hh)
    | .ok _, .error _ => isFalse (fun hh => Except.noConfusion hh)

/-- Model of `str.strip()` restricted to ASCII whitespace characters: drop
whitespace from both ends of the character list.  (Python also strips a few
rarer whitespace code points; inputs here are ASCII.) -/
def pyStrip (cs : List Char) : List Char :=
  ((cs.dropWhile Char.isWhitespace).reverse.dropWhile Char.isWhitespace).reverse

/-- Value of an ASCII digit character. -/
def digitVal (c : Char) : Nat := c.toNat - 48

/-- Digit tail of a Python integer literal: digits with single underscores
allowed strictly between digits.  `acc` is the value of the digits read so
far.  Returns `none` on a malformed tail. -/
def pyDigitsAux : Nat → List Char → Option Nat
  | acc, [] => some acc
  | acc, '_' :: c :: cs =>
      if c.isDigit then pyDigitsAux (acc * 10 + digitVal c) cs else none
  | acc, c :: cs =>
      if c.isDigit then pyDigitsAux (acc * 10 + digitVal c) cs else none

/-- A nonempty digit sequence (with inner underscores); `none` otherwise. -/
def pyIntDigits : List Char → Option Nat
  | [] => none
  | c :: cs => if c.isDigit then pyDigitsAux (digitVal c) cs else none

/-- Model of Python `int(s)` on a string: surrounding whitespace is stripped,
one optional sign is allowed, then a nonempty digit sequence with single
underscores strictly between digits.  Returns `none` exactly where Python
raises `ValueError`. -/
def pyInt (s : String) : Option Int :=
  match pyStrip s.toList with
  | '+' :: rest => (pyIntDigits rest).map (fun n => (n : Int))
  | '-' :: rest => (pyIntDigits rest).map (fun n => -(n : Int))
  | rest => (pyIntDigits rest).map (fun n => (n : Int))

/-- One row of the upstream feed (seller.py watch_remnants): the fields the
core reads, already stringified.  `kod` is the "Код" column, `kolichestvo`
the "Количество" column, `tsena` the "Цена" column. -/
structure Watch where
  kod : String
  kolichestvo : String
  tsena : String
deriving DecidableEq, Repr

/-- Quantity normalization shared verbatim by seller.create_stocks
(seller.py lines 202-208) and market.create_stocks (market.py lines 203-209):
the literal ">10" becomes 100, the literal "1" becomes 0, anything else goes
through Python `int`, whose `ValueError` is the error case. -/
def normalizeQuantity (kolichestvo : String) : Except String Int :=
  if kolichestvo = ">10" then .ok 100
  else if kolichestvo = "1" then .ok 0
  else
    match pyInt kolichestvo with
    | some n => .ok n
    | none => .error ("invalid literal for int with base 10: " ++ kolichestvo)

namespace seller

/-- Splitting pass of Python `s.split(sep)` over the character list; `acc`
holds the characters of the current field. -/
def pySplitAux (sep : Char) : List Char → List Char → List String
  | acc, [] => [String.mk acc]
  | acc, c :: cs =>
      if c = sep then String.mk acc :: pySplitAux sep [] cs
      else pySplitAux sep (acc ++ [c]) cs

/-- Model of Python `s.split(sep)` for a one-character separator: the list of
fields between occurrences of `sep` (always nonempty). -/
def pySplit (s : String) (sep : Char) : List String :=
  pySplitAux sep [] s.toList

/-- Model of `re.sub("[^0-9]", "", s)`: every character that is not an ASCII
digit is deleted, i.e. exactly the ASCII digits are kept. -/
def reSubKeepDigits (s : String) : String :=
  String.mk (s.toList.filter Char.isDigit)

/-- seller.py price_conversion (line 261):
`re.sub("[^0-9]", "", price.split(".")[0])`.  Indexing `[0]` is total because
`split` always returns a nonempty list. -/
def price_conversion (price : String) : String :=
  reSubKeepDigits ((pySplit price '.').headD "")

/-- A seller stock dict as built at seller.py line 209:
`{"offer_id": str(watch.get("Код")), "stock": stock}`. -/
structure SellerStock where
  offer_id : String
  stock : Int
deriving DecidableEq, Repr

/-- The keys of the dict literal at seller.py line 209; the seller stock
entry carries no other field. -/
def SellerStock.keys : List String := ["offer_id", "stock"]

/-- A seller price dict as built at seller.py lines 235-241. -/
structure SellerPrice where
  auto_action_enabled : String
  currency_code : String
  offer_id : String
  old_price : String
  price : String
deriving DecidableEq, Repr

/-- First loop of seller.create_stocks (lines 200-210): walk the feed; when a
record's stringified code is in the working list, normalize its quantity,
emit an entry and remove that code (Python `list.remove` deletes the first
occurrence, modelled by `List.erase`).  Returns the matched entries together
with the final state of `offer_ids`. -/
def create_stocks_go : List Watch → List String →
    Except String (List SellerStock × List String)
  | [], offer_ids => .ok ([], offer_ids)
  | watch :: rest, offer_ids =>
    if watch.kod ∈ offer_ids then
      match normalizeQuantity watch.kolichestvo with
      | .error e => .error e
      | .ok stock =>
        match create_stocks_go rest (offer_ids.erase watch.kod) with
        | .error e => .error e
        | .ok (stocks, remaining) => .ok (⟨watch.kod, stock⟩ :: stocks, remaining)
    else create_stocks_go rest offer_ids

/-- seller.py create_stocks (lines 183-214): matched entries first, then a
zero-stock entry for every code still in `offer_ids` (lines 212-213).  The
second component is the final content of the caller's `offer_ids` list,
which the function mutates in place. -/
def create_stocks (watch_remnants : List Watch) (offer_ids : List String) :
    Except String (List SellerStock × List String) :=
  match create_stocks_go watch_remnants offer_ids with
  | .error e => .error e
  | .ok (stocks, remaining) =>
      .ok (stocks ++ remaining.map (fun offer_id => ⟨offer_id, 0⟩), remaining)

/-- seller.py create_prices (lines 217-243): one price dict per feed record
whose stringified code is in `offer_ids`; the list is not mutated. -/
def create_prices (watch_remnants : List Watch) (offer_ids : List String) :
    List SellerPrice :=
  match watch_remnants with
  | [] => []
  | watch :: rest =>
    if watch.kod ∈ offer_ids then
      ⟨"UNKNOWN", "RUB", watch.kod, "0", price_conversion watch.tsena⟩ ::
        create_prices rest offer_ids
    else create_prices rest offer_ids

/-- Number of elements of Python `range(start, stop, step)`, per the CPython
formula `(hi - lo - 1) // |step| + 1` on the nonempty side and `0` otherwise.
Callers guarantee `step ≠ 0` (Python raises `ValueError` there). -/
def pyRangeLen (start stop step : Int) : Nat :=
  if 0 < step then
    if start < stop then (stop - start - 1).toNat / step.toNat + 1 else 0
  else
    if stop < start then (start - stop - 1).toNat / (-step).toNat + 1 else 0

/-- Model of Python `range(start, stop, step)` for `step ≠ 0`: the k-th
element is `start + k * step`. -/
def pythonRange (start stop step : Int) : List Int :=
  (List.range (pyRangeLen start stop step)).map (fun (k : Nat) => start + (k : Int) * step)

/-- Model of the Python slice `lst[i:j]` for `0 ≤ i ≤ j`, the only shape
`divide` uses: drop `i`, then take `j - i` (both clamp at the ends). -/
def pySlice {α : Type} (lst : List α) (i j : Int) : List α :=
  (lst.drop i.toNat).take (j - i).toNat

/-- seller.py divide (lines 264-280): the generator
`for i in range(0, len(lst), n): yield lst[i : i + n]`, materialized as the
callers do via `list(...)`.  `range` raises `ValueError` when the step is 0;
for a negative step it is empty, so the generator yields nothing. -/
def divide {α : Type} (lst : List α) (n : Int) : Except String (List (List α)) :=
  if n = 0 then .error "range arg 3 must not be zero"
  else .ok ((pythonRange 0 lst.length n).map (fun i => pySlice lst i (i + n)))

end seller

namespace market

/-- A market stock item as built at market.py lines 214-221. -/
structure MarketStockItem where
  count : Int
  type : String
  updatedAt : String
deriving DecidableEq, Repr

/-- A market stock dict as built at market.py lines 210-222: a sku, the
warehouse identifier, and a single-element items list. -/
structure MarketStock where
  sku : String
  warehouseId : String
  items : List MarketStockItem
deriving DecidableEq, Repr

/-- The price object of a market price dict (market.py lines 272-277). -/
structure MarketPriceValue where
  value : Int
  currencyId : String
deriving DecidableEq, Repr

/-- A market price dict as built at market.py lines 269-280. -/
structure MarketPrice where
  id : String
  price : MarketPriceValue
deriving DecidableEq, Repr

/-- First loop of market.create_stocks (market.py lines 201-223); `date` is
the timestamp string computed once at line 200
(`datetime.datetime.utcnow().replace(microsecond=0).isoformat() + "Z"`),
passed in because the embedding is pure.  Matching, quantity normalization
and the in-place `offer_ids.remove` are exactly as in the seller variant. -/
def create_stocks_go (warehouse_id date : String) : List Watch → List String →
    Except String (List MarketStock × List String)
  | [], offer_ids => .ok ([], offer_ids)
  | watch :: rest, offer_ids =>
    if watch.kod ∈ offer_ids then
      match normalizeQuantity watch.kolichestvo with
      | .error e => .error e
      | .ok stock =>
        match create_stocks_go warehouse_id date rest (offer_ids.erase watch.kod) with
        | .error e => .error e
        | .ok (stocks, remaining) =>
            .ok (⟨watch.kod, warehouse_id, [⟨stock, "FIT", date⟩]⟩ :: stocks, remaining)
    else create_stocks_go warehouse_id date rest offer_ids

/-- market.py create_stocks (lines 169-239): matched entries first, then a
count-0 entry for every code still in `offer_ids` (lines 225-238), all
stamped with the same `date`.  The second component is the final content of
the caller's `offer_ids` list. -/
def create_stocks (watch_remnants : List Watch) (offer_ids : List String)
    (warehouse_id date : String) :
    Except String (List MarketStock × List String) :=
  match create_stocks_go warehouse_id date watch_remnants offer_ids with
  | .error e => .error e
  | .ok (stocks, remaining) =>
      .ok (stocks ++ remaining.map
        (fun offer_id => ⟨offer_id, warehouse_id, [⟨0, "FIT", date⟩]⟩), remaining)

/-- market.py create_prices (lines 242-282): one price dict per feed record
whose stringified code is in `offer_ids`; the value is
`int(price_conversion(watch.get("Цена")))`, whose `ValueError` makes the
function fallible. -/
def create_prices : List Watch → List String → Except String (List MarketPrice)
  | [], _ => .ok []
  | watch :: rest, offer_ids =>
    if watch.kod ∈ offer_ids then
      match pyInt (seller.price_conversion watch.tsena) with
      | none => .error ("invalid literal for int with base 10: " ++
          seller.price_conversion watch.tsena)
      | some value =>
        match create_prices rest offer_ids with
        | .error e => .error e
        | .ok prices => .ok (⟨watch.kod, ⟨value, "RUR"⟩⟩ :: prices)
    else create_prices rest offer_ids

end market

/- Derived definitions used by the verification -/

/-- Modelled from the spec words of the Price Normalizer (section 4.2): take
the substring before the first dot, remove every character that is not an
ASCII digit, return the remaining digit string. -/
def price_conversion_spec (price : String) : String :=
  String.mk ((price.toList.takeWhile (fun c => c != '.')).filter Char.isDigit)

/-- Reference chunking of a list: repeatedly take `m` elements from the
front.  For positive `m` this is what `divide` computes. -/
def chunksOf {α : Type} (m : Nat) : List α → List (List α)
  | [] => []
  | x :: xs => (x :: xs).take m :: chunksOf m (xs.drop (m - 1))
termination_by l => l.length
decreasing_by simp [List.length_drop]; omega

/-- The benign-quantity condition under which stock counts stay non-negative:
the raw quantity is one of the two literal markers, or parses to a
non-negative integer. -/
def quantityNonneg (wa : Watch) : Prop :=
  wa.kolichestvo = ">10" ∨ wa.kolichestvo = "1" ∨
    ∀ n, pyInt wa.kolichestvo = some n → 0 ≤ n

/- Theorems -/

theorem pySplitAux_headD (sep : Char) (cs : List Char) : ∀ acc : List Char,
    ((seller.pySplitAux sep acc cs).headD "") =
      String.mk (acc ++ cs.takeWhile (fun c => c != sep)) := by
  induction cs with
  | nil => intro acc; simp [seller.pySplitAux]
  | cons c cs ih =>
    intro acc
    by_cases h : c = sep
    · simp [seller.pySplitAux, h]
    · rw [seller.pySplitAux, if_neg h, ih (acc ++ [c])]
      simp [List.takeWhile_cons, h]

theorem price_conversion_eq (price : String) :
    seller.price_conversion price = price_conversion_spec price := by
  rw [seller.price_conversion, seller.pySplit, pySplitAux_headD,
    price_conversion_spec, seller.reSubKeepDigits]
  simp

/-- Claim C5: for every input price string, price_conversion returns the
substring before the first dot with every character that is not an ASCII
digit removed; in particular it maps "5'990.00 руб." to "5990" and
"100.50 $" to "100". -/
theorem c5_price_conversion :
    (∀ price, seller.price_conversion price = price_conversion_spec price) ∧
    seller.price_conversion "5\x27990.00 руб." = "5990" ∧
    seller.price_conversion "100.50 $" = "100" :=
  ⟨price_conversion_eq, by decide, by decide⟩

/-- Claim C4: the quantity normalizer shared by both create_stocks variants
maps the literal ">10" to 100 and the literal "1" to 0, parses any other
value as a Python integer (so "7" maps to 7), and fails on any other string
that is not parseable as an integer, such as "abc". -/
theorem c4_quantity_normalizer :
    normalizeQuantity ">10" = .ok 100 ∧
    normalizeQuantity "1" = .ok 0 ∧
    normalizeQuantity "7" = .ok 7 ∧
    (∀ s n, s ≠ ">10" → s ≠ "1" → pyInt s = some n → normalizeQuantity s = .ok n) ∧
    (∀ s, s ≠ ">10" → s ≠ "1" → pyInt s = none →
      normalizeQuantity s = .error ("invalid literal for int with base 10: " ++ s)) ∧
    normalizeQuantity "abc" = .error ("invalid literal for int with base 10: " ++ "abc") := by
  refine ⟨by decide, by decide, by decide, ?_, ?_, by decide⟩
  · intro s n h1 h2 h3
    simp [normalizeQuantity, h1, h2, h3]
  · intro s h1 h2 h3
    simp [normalizeQuantity, h1, h2, h3]

/-- Witness for C4: the generic clauses applied at the strings "7" and "Q". -/
theorem c4_quantity_normalizer_witness :
    (("7" : String) ≠ ">10" ∧ ("7" : String) ≠ "1" ∧ pyInt "7" = some 7 ∧
      ("Q" : String) ≠ ">10" ∧ ("Q" : String) ≠ "1" ∧ pyInt "Q" = none) ∧
    normalizeQuantity "7" = .ok 7 ∧
    normalizeQuantity "Q" = .error ("invalid literal for int with base 10: " ++ "Q") :=
  ⟨⟨by decide, by decide, by decide, by decide, by decide, by decide⟩,
    c4_quantity_normalizer.2.2.2.1 "7" 7 (by decide) (by decide) (by decide),
    c4_quantity_normalizer.2.2.2.2.1 "Q" (by decide) (by decide) (by decide)⟩

/-- Claim C7 counterexample: price_conversion cannot fail on a string input;
on "abc" (whose part before the first dot has no digit) it returns the empty
string instead of raising anything. -/
theorem c7_counterexample : seller.price_conversion "abc" = "" := by decide

/-- Claim C7 (amended): for every input price string whose substring before
the first dot contains no ASCII digit, price_conversion returns the empty
string rather than failing. -/
theorem c7_empty_price (s : String)
    (h : (s.toList.takeWhile (fun c => c != '.')).filter Char.isDigit = []) :
    seller.price_conversion s = "" := by
  rw [price_conversion_eq, price_conversion_spec, h]

/-- Witness for the amended C7 at the concrete input "x.25". -/
theorem c7_empty_price_witness :
    (("x.25".toList.takeWhile (fun c => c != '.')).filter Char.isDigit = []) ∧
      seller.price_conversion "x.25" = "" :=
  ⟨by decide, c7_empty_price "x.25" (by decide)⟩

/-- Claim C8 counterexample: for a negative chunk size divide does not fail;
range(0, len(lst), n) is then empty, so it silently yields no chunks. -/
theorem c8_counterexample :
    (-1 : Int) ≤ 0 ∧ seller.divide ([1, 2, 3, 4, 5] : List Int) (-1) = .ok [] :=
  ⟨by decide, by decide⟩

/-- Claim C8 (amended): divide fails only for chunk size 0 (where range
raises ValueError); for every negative chunk size it silently produces the
empty sequence of chunks. -/
theorem c8_invalid_chunk {α : Type} (lst : List α) (n : Int) :
    (n = 0 → seller.divide lst n = .error "range arg 3 must not be zero") ∧
    (n < 0 → seller.divide lst n = .ok []) := by
  constructor
  · intro h
    simp [seller.divide, h]
  · intro h
    have h0 : ¬ n = 0 := by omega
    have h1 : ¬ 0 < n := by omega
    have h2 : ¬ ((lst.length : Int) < 0) := by omega
    simp [seller.divide, h0, seller.pythonRange, seller.pyRangeLen, h1, h2]

/-- Witness for the amended C8 at chunk sizes 0 and -2. -/
theorem c8_invalid_chunk_witness :
    seller.divide ([1, 2, 3] : List Int) 0 = .error "range arg 3 must not be zero" ∧
    seller.divide ([1, 2, 3] : List Int) (-2) = .ok [] :=
  ⟨(c8_invalid_chunk [1, 2, 3] 0).1 rfl, (c8_invalid_chunk [1, 2, 3] (-2)).2 (by decide)⟩

theorem chunksOf_nil {α : Type} (m : Nat) : chunksOf m ([] : List α) = [] := by
  rw [chunksOf]

theorem chunksOf_cons {α : Type} (m : Nat) (x : α) (xs : List α) :
    chunksOf m (x :: xs) = (x :: xs).take m :: chunksOf m (xs.drop (m - 1)) := by
  rw [chunksOf]

theorem drop_cons_pred {α : Type} (x : α) (xs : List α) (m : Nat) (hm : 0 < m) :
    xs.drop (m - 1) = (x :: xs).drop m := by
  obtain ⟨k, rfl⟩ : ∃ k, m = k + 1 := ⟨m - 1, by omega⟩
  simp

theorem pySlice_eq {α : Type} (lst : List α) (i j : Int) (a b : Nat)
    (ha : i = (a : Int)) (hb : j - i = (b : Int)) :
    seller.pySlice lst i j = (lst.drop a).take b := by
  rw [seller.pySlice, hb, ha]
  simp

theorem pythonRange_mem (S step i : Int)
    (h : i ∈ seller.pythonRange 0 S step) : ∃ k : Nat, i = (k : Int) * step := by
  rw [seller.pythonRange] at h
  obtain ⟨k, hk, rfl⟩ := List.mem_map.mp h
  exact ⟨k, by simp⟩

theorem pythonRange_zero_cons (L m : Nat) (hm : 0 < m) (hL : 0 < L) :
    seller.pythonRange 0 (L : Int) (m : Int) =
      0 :: (seller.pythonRange 0 ((L - m : Nat) : Int) (m : Int)).map
        (fun i => i + (m : Int)) := by
  have hm' : (0 : Int) < (m : Int) := by exact_mod_cast hm
  have hL' : (0 : Int) < (L : Int) := by exact_mod_cast hL
  have hcount : seller.pyRangeLen 0 (L : Int) (m : Int) =
      seller.pyRangeLen 0 ((L - m : Nat) : Int) (m : Int) + 1 := by
    rw [seller.pyRangeLen, seller.pyRangeLen, if_pos hm', if_pos hm', if_pos hL']
    have e1 : ((L : Int) - 0 - 1).toNat = L - 1 := by omega
    have e2 : ((m : Int)).toNat = m := by omega
    have e3 : (((L - m : Nat) : Int) - 0 - 1).toNat = L - m - 1 := by omega
    by_cases hLm : m < L
    · have hsub : (0 : Int) < ((L - m : Nat) : Int) := by
        have h4 : 0 < L - m := by omega
        exact_mod_cast h4
      rw [if_pos hsub, e1, e2, e3]
      have h5 : L - 1 = (L - m - 1) + m := by omega
      rw [h5, Nat.add_div_right _ hm]
    · have hsub : ¬ ((0 : Int) < ((L - m : Nat) : Int)) := by
        have h4 : L - m = 0 := by omega
        rw [h4]
        simp
      rw [if_neg hsub, e1, e2]
      have h5 : L - 1 < m := by omega
      rw [Nat.div_eq_of_lt h5]
  rw [seller.pythonRange, seller.pythonRange, hcount, List.range_succ_eq_map]
  simp only [List.map_cons, List.map_map]
  congr 1
  · simp
  · apply List.map_congr_left
    intro k _
    simp only [Function.comp_apply]
    push_cast
    ring

theorem divideBody_cons {α : Type} (m : Nat) (hm : 0 < m) (x : α) (xs : List α) :
    (seller.pythonRange 0 ((x :: xs).length : Int) (m : Int)).map
        (fun i => seller.pySlice (x :: xs) i (i + (m : Int))) =
      (x :: xs).take m ::
        (seller.pythonRange 0 (((x :: xs).drop m).length : Int) (m : Int)).map
          (fun i => seller.pySlice ((x :: xs).drop m) i (i + (m : Int))) := by
  have hL : 0 < (x :: xs).length := by simp
  have hdl : ((x :: xs).drop m).length = (x :: xs).length - m := List.length_drop m _
  rw [hdl, pythonRange_zero_cons (x :: xs).length m hm hL]
  simp only [List.map_cons, List.map_map]
  congr 1
  · exact pySlice_eq _ _ _ 0 m (by simp) (by simp)
  · apply List.map_congr_left
    intro i hi
    obtain ⟨k, rfl⟩ := pythonRange_mem _ _ _ hi
    simp only [Function.comp_apply]
    rw [pySlice_eq (x :: xs) _ _ (k * m + m) m (by push_cast; ring) (by ring),
      pySlice_eq ((x :: xs).drop m) _ _ (k * m) m (by push_cast; ring) (by ring),
      List.drop_drop, Nat.add_comm m (k * m)]

theorem divide_ok_eq_chunksOf {α : Type} (m : Nat) (hm : 0 < m) :
    ∀ (N : Nat) (lst : List α), lst.length ≤ N →
      (seller.pythonRange 0 lst.length (m : Int)).map
          (fun i => seller.pySlice lst i (i + (m : Int))) = chunksOf m lst := by
  intro N
  induction N with
  | zero =>
    intro lst h
    obtain rfl : lst = [] := by cases lst <;> simp_all
    simp [seller.pythonRange, seller.pyRangeLen, chunksOf_nil]
  | succ N ih =>
    intro lst h
    cases lst with
    | nil => simp [seller.pythonRange, seller.pyRangeLen, chunksOf_nil]
    | cons x xs =>
      rw [divideBody_cons m hm x xs, chunksOf_cons, drop_cons_pred x xs m hm]
      congr 1
      apply ih ((x :: xs).drop m)
      simp only [List.length_drop, List.length_cons] at h ⊢
      omega

theorem chunksOf_flatten {α : Type} (m : Nat) (hm : 0 < m) :
    ∀ (N : Nat) (lst : List α), lst.length ≤ N → (chunksOf m lst).flatten = lst := by
  intro N
  induction N with
  | zero =>
    intro lst h
    obtain rfl : lst = [] := by cases lst <;> simp_all
    simp [chunksOf_nil]
  | succ N ih =>
    intro lst h
    cases lst with
    | nil => simp [chunksOf_nil]
    | cons x xs =>
      rw [chunksOf_cons, drop_cons_pred x xs m hm, List.flatten_cons]
      rw [ih ((x :: xs).drop m) (by simp only [List.length_drop, List.length_cons] at h ⊢; omega)]
      exact List.take_append_drop m (x :: xs)

theorem chunksOf_ne_nil {α : Type} (m : Nat) (x : α) (xs : List α) :
    chunksOf m (x :: xs) ≠ [] := by
  rw [chunksOf_cons]
  simp

theorem chunksOf_dropLast_length {α : Type} (m : Nat) (hm : 0 < m) :
    ∀ (N : Nat) (lst : List α), lst.length ≤ N →
      ∀ c ∈ (chunksOf m lst).dropLast, c.length = m := by
  intro N
  induction N with
  | zero =>
    intro lst h c hc
    obtain rfl : lst = [] := by cases lst <;> simp_all
    rw [chunksOf_nil] at hc
    simp at hc
  | succ N ih =>
    intro lst h c hc
    cases lst with
    | nil =>
      rw [chunksOf_nil] at hc
      simp at hc
    | cons x xs =>
      rw [chunksOf_cons, drop_cons_pred x xs m hm] at hc
      rcases hdrop : (x :: xs).drop m with _ | ⟨y, ys⟩
      · rw [hdrop, chunksOf_nil] at hc
        simp at hc
      · rw [hdrop, List.dropLast_cons_of_ne_nil (chunksOf_ne_nil m y ys)] at hc
        have hylen : (y :: ys).length = (x :: xs).length - m := by
          rw [← hdrop]
          exact List.length_drop m _
        rcases List.mem_cons.mp hc with rfl | hc2
        · have hml : m < (x :: xs).length := by
            by_contra hh
            have hnil : (x :: xs).drop m = [] := List.drop_eq_nil_of_le (by omega)
            rw [hnil] at hdrop
            cases hdrop
          simp only [List.length_take]
          omega
        · apply ih (y :: ys) (by simp only [List.length_cons] at h hylen ⊢; omega) c hc2

theorem chunksOf_getLast_length {α : Type} (m : Nat) (hm : 0 < m) :
    ∀ (N : Nat) (lst : List α), lst.length ≤ N →
      ∀ c, (chunksOf m lst).getLast? = some c →
        c.length = if lst.length % m = 0 then m else lst.length % m := by
  intro N
  induction N with
  | zero =>
    intro lst h c hc
    obtain rfl : lst = [] := by cases lst <;> simp_all
    rw [chunksOf_nil] at hc
    cases hc
  | succ N ih =>
    intro lst h c hc
    cases lst with
    | nil =>
      rw [chunksOf_nil] at hc
      cases hc
    | cons x xs =>
      rw [chunksOf_cons, drop_cons_pred x xs m hm] at hc
      rcases hdrop : (x :: xs).drop m with _ | ⟨y, ys⟩
      · rw [hdrop, chunksOf_nil] at hc
        have hcl : c = (x :: xs).take m := by
          simp only [List.getLast?_singleton, Option.some.injEq] at hc
          exact hc.symm
        have hLm : (x :: xs).length ≤ m := by
          by_contra hh
          have hne : (x :: xs).drop m ≠ [] := by
            intro hnil
            have := congrArg List.length hnil
            simp only [List.length_drop, List.length_nil] at this
            omega
          exact hne hdrop
        rw [hcl, List.take_of_length_le hLm]
        by_cases hEq : (x :: xs).length = m
        · rw [hEq]
          simp [Nat.mod_self]
        · have hlt : (x :: xs).length < m := by omega
          rw [Nat.mod_eq_of_lt hlt, if_neg (by simp)]
      · rw [hdrop, chunksOf_cons, List.getLast?_cons_cons, ← chunksOf_cons] at hc
        have hylen : (y :: ys).length = (x :: xs).length - m := by
          rw [← hdrop]
          exact List.length_drop m _
        have hml : m < (x :: xs).length := by
          have := congrArg List.length hdrop
          simp only [List.length_drop, List.length_cons] at this ⊢
          omega
        have hrec := ih (y :: ys) (by simp only [List.length_cons] at h hylen ⊢; omega) c hc
        have hmod : (y :: ys).length % m = (x :: xs).length % m := by
          rw [hylen]
          conv_rhs => rw [show (x :: xs).length = ((x :: xs).length - m) + m by omega]
          rw [Nat.add_mod_right]
        rw [hrec, hmod]

/-- Claim C2: for every list S and positive n, divide(S, n) succeeds and
yields contiguous chunks whose concatenation is exactly S, every chunk
except possibly the last has length n, and the last chunk has length
S.length mod n (or n when n divides evenly); in particular
divide([1,2,3,4,5], 2) yields [[1,2],[3,4],[5]]. -/
theorem c2_divide_batcher (S : List Int) (n : Int) (hn : 0 < n) :
    (∃ chunks, seller.divide S n = .ok chunks ∧
      chunks.flatten = S ∧
      (∀ c ∈ chunks.dropLast, c.length = n.toNat) ∧
      (∀ c, chunks.getLast? = some c →
        c.length = if S.length % n.toNat = 0 then n.toNat else S.length % n.toNat)) ∧
    seller.divide ([1, 2, 3, 4, 5] : List Int) 2 = .ok [[1, 2], [3, 4], [5]] := by
  have hm : 0 < n.toNat := by omega
  constructor
  · refine ⟨chunksOf n.toNat S, ?_, chunksOf_flatten n.toNat hm S.length S (le_refl _),
      chunksOf_dropLast_length n.toNat hm S.length S (le_refl _),
      chunksOf_getLast_length n.toNat hm S.length S (le_refl _)⟩
    rw [seller.divide, if_neg (by omega : ¬ n = 0)]
    congr 1
    conv_lhs => rw [← (Int.toNat_of_nonneg (by omega : (0 : Int) ≤ n))]
    exact divide_ok_eq_chunksOf n.toNat hm S.length S (le_refl _)
  · decide

/-- Witness for C2 at S = [1,2,3,4,5] and n = 2. -/
theorem c2_divide_batcher_witness :
    (0 : Int) < 2 ∧
    ((∃ chunks, seller.divide ([1, 2, 3, 4, 5] : List Int) 2 = .ok chunks ∧
      chunks.flatten = [1, 2, 3, 4, 5] ∧
      (∀ c ∈ chunks.dropLast, c.length = (2 : Int).toNat) ∧
      (∀ c, chunks.getLast? = some c →
        c.length = if ([1, 2, 3, 4, 5] : List Int).length % (2 : Int).toNat = 0
          then (2 : Int).toNat
          else ([1, 2, 3, 4, 5] : List Int).length % (2 : Int).toNat)) ∧
     seller.divide ([1, 2, 3, 4, 5] : List Int) 2 = .ok [[1, 2], [3, 4], [5]]) :=
  ⟨by decide, c2_divide_batcher [1, 2, 3, 4, 5] 2 (by decide)⟩

theorem seller_go_perm :
    ∀ (I : List Watch) (C : List String) (M : List seller.SellerStock) (R : List String),
      seller.create_stocks_go I C = .ok (M, R) →
      (M.map seller.SellerStock.offer_id ++ R).Perm C := by
  intro I
  induction I with
  | nil =>
    intro C M R h
    rw [seller.create_stocks_go] at h
    injection h with h
    injection h with h1 h2
    subst h1
    subst h2
    simp
  | cons w ws ih =>
    intro C M R h
    rw [seller.create_stocks_go] at h
    by_cases hmem : w.kod ∈ C
    · rw [if_pos hmem] at h
      cases hq : normalizeQuantity w.kolichestvo with
      | error e =>
        rw [hq] at h
        cases h
      | ok stock =>
        rw [hq] at h
        cases hgo : seller.create_stocks_go ws (C.erase w.kod) with
        | error e =>
          rw [hgo] at h
          cases h
        | ok p =>
          obtain ⟨M2, R2⟩ := p
          rw [hgo] at h
          injection h with h
          injection h with h1 h2
          subst h1
          subst h2
          have hperm := ih (C.erase w.kod) M2 R2 hgo
          simp only [List.map_cons, List.cons_append]
          exact (hperm.cons w.kod).trans (List.perm_cons_erase hmem).symm
    · rw [if_neg hmem] at h
      exact ih C M R h

theorem market_go_perm (w d : String) :
    ∀ (I : List Watch) (C : List String) (M : List market.MarketStock) (R : List String),
      market.create_stocks_go w d I C = .ok (M, R) →
      (M.map market.MarketStock.sku ++ R).Perm C := by
  intro I
  induction I with
  | nil =>
    intro C M R h
    rw [market.create_stocks_go] at h
    injection h with h
    injection h with h1 h2
    subst h1
    subst h2
    simp
  | cons wa ws ih =>
    intro C M R h
    rw [market.create_stocks_go] at h
    by_cases hmem : wa.kod ∈ C
    · rw [if_pos hmem] at h
      cases hq : normalizeQuantity wa.kolichestvo with
      | error e =>
        rw [hq] at h
        cases h
      | ok stock =>
        rw [hq] at h
        cases hgo : market.create_stocks_go w d ws (C.erase wa.kod) with
        | error e =>
          rw [hgo] at h
          cases h
        | ok p =>
          obtain ⟨M2, R2⟩ := p
          rw [hgo] at h
          injection h with h
          injection h with h1 h2
          subst h1
          subst h2
          have hperm := ih (C.erase wa.kod) M2 R2 hgo
          simp only [List.map_cons, List.cons_append]
          exact (hperm.cons wa.kod).trans (List.perm_cons_erase hmem).symm
    · rw [if_neg hmem] at h
      exact ih C M R h

theorem seller_create_stocks_ids (I : List Watch) (C : List String)
    (out : List seller.SellerStock) (rem : List String)
    (h : seller.create_stocks I C = .ok (out, rem)) :
    (out.map seller.SellerStock.offer_id).Perm C := by
  rw [seller.create_stocks] at h
  cases hgo : seller.create_stocks_go I C with
  | error e =>
    rw [hgo] at h
    cases h
  | ok p =>
    obtain ⟨M, R⟩ := p
    rw [hgo] at h
    injection h with h
    injection h with h1 h2
    subst h1
    have hperm := seller_go_perm I C M R hgo
    have hmap : ((M ++ R.map (fun offer_id => (⟨offer_id, 0⟩ : seller.SellerStock))).map
        seller.SellerStock.offer_id) = M.map seller.SellerStock.offer_id ++ R := by
      rw [List.map_append, List.map_map]
      congr 1
      conv_rhs => rw [← List.map_id R]
      apply List.map_congr_left
      intro a ha
      rfl
    rw [hmap]
    exact hperm

theorem market_create_stocks_ids (I : List Watch) (C : List String) (w d : String)
    (out : List market.MarketStock) (rem : List String)
    (h : market.create_stocks I C w d = .ok (out, rem)) :
    (out.map market.MarketStock.sku).Perm C := by
  rw [market.create_stocks] at h
  cases hgo : market.create_stocks_go w d I C with
  | error e =>
    rw [hgo] at h
    cases h
  | ok p =>
    obtain ⟨M, R⟩ := p
    rw [hgo] at h
    injection h with h
    injection h with h1 h2
    subst h1
    have hperm := market_go_perm w d I C M R hgo
    have hmap : ((M ++ R.map (fun offer_id =>
        (⟨offer_id, w, [⟨0, "FIT", d⟩]⟩ : market.MarketStock))).map
        market.MarketStock.sku) = M.map market.MarketStock.sku ++ R := by
      rw [List.map_append, List.map_map]
      congr 1
      conv_rhs => rw [← List.map_id R]
      apply List.map_congr_left
      intro a ha
      rfl
    rw [hmap]
    exact hperm

/-- Claim C1: for every duplicate-free catalog C and every inventory I, the
stock reconciliation of both variants (on success) returns a list whose
length equals the catalog length, whose set of offer ids equals the set of
catalog ids, and in which every catalog id appears exactly once. -/
theorem c1_stock_coverage (I : List Watch) (C : List String) (hC : C.Nodup) :
    (∀ out rem, seller.create_stocks I C = .ok (out, rem) →
      out.length = C.length ∧
      (∀ x, x ∈ out.map seller.SellerStock.offer_id ↔ x ∈ C) ∧
      (∀ x ∈ C, (out.map seller.SellerStock.offer_id).count x = 1)) ∧
    (∀ w d out rem, market.create_stocks I C w d = .ok (out, rem) →
      out.length = C.length ∧
      (∀ x, x ∈ out.map market.MarketStock.sku ↔ x ∈ C) ∧
      (∀ x ∈ C, (out.map market.MarketStock.sku).count x = 1)) := by
  constructor
  · intro out rem h
    have hperm := seller_create_stocks_ids I C out rem h
    refine ⟨?_, fun x => hperm.mem_iff, fun x hx => ?_⟩
    · have := hperm.length_eq
      simpa using this
    · rw [hperm.count_eq]
      exact List.count_eq_one_of_mem hC hx
  · intro w d out rem h
    have hperm := market_create_stocks_ids I C w d out rem h
    refine ⟨?_, fun x => hperm.mem_iff, fun x hx => ?_⟩
    · have := hperm.length_eq
      simpa using this
    · rw [hperm.count_eq]
      exact List.count_eq_one_of_mem hC hx

/-- Witness for C1 at inventory [("A", ">10")] and catalog ["A", "B"]. -/
theorem c1_stock_coverage_witness :
    (["A", "B"] : List String).Nodup ∧
    ((∀ out rem,
        seller.create_stocks [(⟨"A", ">10", "x"⟩ : Watch)] ["A", "B"] = .ok (out, rem) →
        out.length = (["A", "B"] : List String).length ∧
        (∀ x, x ∈ out.map seller.SellerStock.offer_id ↔ x ∈ (["A", "B"] : List String)) ∧
        (∀ x ∈ (["A", "B"] : List String),
          (out.map seller.SellerStock.offer_id).count x = 1)) ∧
     (∀ w d out rem,
        market.create_stocks [(⟨"A", ">10", "x"⟩ : Watch)] ["A", "B"] w d = .ok (out, rem) →
        out.length = (["A", "B"] : List String).length ∧
        (∀ x, x ∈ out.map market.MarketStock.sku ↔ x ∈ (["A", "B"] : List String)) ∧
        (∀ x ∈ (["A", "B"] : List String),
          (out.map market.MarketStock.sku).count x = 1))) :=
  ⟨by decide, c1_stock_coverage [(⟨"A", ">10", "x"⟩ : Watch)] ["A", "B"] (by decide)⟩

theorem seller_go_rem_iff :
    ∀ (I : List Watch) (C : List String), C.Nodup →
      ∀ M R, seller.create_stocks_go I C = .ok (M, R) →
        ∀ x, x ∈ R ↔ (x ∈ C ∧ x ∉ I.map Watch.kod) := by
  intro I
  induction I with
  | nil =>
    intro C hC M R h x
    rw [seller.create_stocks_go] at h
    injection h with h
    injection h with h1 h2
    subst h2
    simp
  | cons w ws ih =>
    intro C hC M R h x
    rw [seller.create_stocks_go] at h
    by_cases hmem : w.kod ∈ C
    · rw [if_pos hmem] at h
      cases hq : normalizeQuantity w.kolichestvo with
      | error e =>
        rw [hq] at h
        cases h
      | ok stock =>
        rw [hq] at h
        cases hgo : seller.create_stocks_go ws (C.erase w.kod) with
        | error e =>
          rw [hgo] at h
          cases h
        | ok p =>
          obtain ⟨M2, R2⟩ := p
          rw [hgo] at h
          injection h with h
          injection h with h1 h2
          subst h2
          have hiff := ih (C.erase w.kod) (hC.erase w.kod) M2 R2 hgo x
          rw [hiff, List.Nodup.mem_erase_iff hC]
          simp only [List.map_cons, List.mem_cons]
          constructor
          · rintro ⟨⟨hxk, hxC⟩, hxws⟩
            exact ⟨hxC, fun hin => hin.elim hxk hxws⟩
          · rintro ⟨hxC, hnot⟩
            exact ⟨⟨fun he => hnot (Or.inl he), hxC⟩, fun hin => hnot (Or.inr hin)⟩
    · rw [if_neg hmem] at h
      rw [ih C hC M R h x]
      simp only [List.map_cons, List.mem_cons]
      constructor
      · rintro ⟨hxC, hxws⟩
        exact ⟨hxC, fun hor => hor.elim (fun he => hmem (he ▸ hxC)) hxws⟩
      · rintro ⟨hxC, hnot⟩
        exact ⟨hxC, fun hin => hnot (Or.inr hin)⟩

theorem seller_go_matched_iff :
    ∀ (I : List Watch) (C : List String), C.Nodup →
      ∀ M R, seller.create_stocks_go I C = .ok (M, R) →
        ∀ x, x ∈ M.map seller.SellerStock.offer_id ↔ (x ∈ C ∧ x ∈ I.map Watch.kod) := by
  intro I
  induction I with
  | nil =>
    intro C hC M R h x
    rw [seller.create_stocks_go] at h
    injection h with h
    injection h with h1 h2
    subst h1
    simp
  | cons w ws ih =>
    intro C hC M R h x
    rw [seller.create_stocks_go] at h
    by_cases hmem : w.kod ∈ C
    · rw [if_pos hmem] at h
      cases hq : normalizeQuantity w.kolichestvo with
      | error e =>
        rw [hq] at h
        cases h
      | ok stock =>
        rw [hq] at h
        cases hgo : seller.create_stocks_go ws (C.erase w.kod) with
        | error e =>
          rw [hgo] at h
          cases h
        | ok p =>
          obtain ⟨M2, R2⟩ := p
          rw [hgo] at h
          injection h with h
          injection h with h1 h2
          subst h1
          have hiff := ih (C.erase w.kod) (hC.erase w.kod) M2 R2 hgo x
          rw [List.Nodup.mem_erase_iff hC] at hiff
          simp only [List.map_cons, List.mem_cons]
          constructor
          · rintro (rfl | hx2)
            · exact ⟨hmem, Or.inl rfl⟩
            · obtain ⟨⟨hne, hxC⟩, hxws⟩ := hiff.mp hx2
              exact ⟨hxC, Or.inr hxws⟩
          · rintro ⟨hxC, rfl | hxws⟩
            · exact Or.inl rfl
            · by_cases hxe : x = w.kod
              · exact Or.inl hxe
              · exact Or.inr (hiff.mpr ⟨⟨hxe, hxC⟩, hxws⟩)
    · rw [if_neg hmem] at h
      rw [ih C hC M R h x]
      simp only [List.map_cons, List.mem_cons]
      constructor
      · rintro ⟨hxC, hxws⟩
        exact ⟨hxC, Or.inr hxws⟩
      · rintro ⟨hxC, rfl | hxws⟩
        · exact absurd hxC hmem
        · exact ⟨hxC, hxws⟩

theorem seller_create_prices_mem :
    ∀ (I : List Watch) (C : List String) (p : seller.SellerPrice),
      p ∈ seller.create_prices I C → p.offer_id ∈ C ∧ p.offer_id ∈ I.map Watch.kod := by
  intro I
  induction I with
  | nil =>
    intro C p hp
    rw [seller.create_prices] at hp
    simp at hp
  | cons w ws ih =>
    intro C p hp
    rw [seller.create_prices] at hp
    by_cases hmem : w.kod ∈ C
    · rw [if_pos hmem] at hp
      rcases List.mem_cons.mp hp with rfl | hp2
      · exact ⟨hmem, by simp⟩
      · obtain ⟨h1, h2⟩ := ih C p hp2
        exact ⟨h1, by simp [h2]⟩
    · rw [if_neg hmem] at hp
      obtain ⟨h1, h2⟩ := ih C p hp
      exact ⟨h1, by simp [h2]⟩

/-- Claim C3 counterexample: with the duplicated catalog ["A", "A"] and one
matching record, create_stocks leaves offer_ids = ["A"]: the remaining list
still contains "A" although "A" was matched by an inventory record, so it is
not the set of catalog ids unmatched by the inventory. -/
theorem c3_counterexample :
    seller.create_stocks [(⟨"A", "5", "x"⟩ : Watch)] ["A", "A"] =
      .ok ([⟨"A", 5⟩, ⟨"A", 0⟩], ["A"]) ∧
    "A" ∈ ([(⟨"A", "5", "x"⟩ : Watch)] : List Watch).map Watch.kod ∧
    ¬ (∀ x, x ∈ (["A"] : List String) ↔
        (x ∈ (["A", "A"] : List String) ∧
          x ∉ ([(⟨"A", "5", "x"⟩ : Watch)] : List Watch).map Watch.kod)) := by
  refine ⟨by decide, by decide, ?_⟩
  intro hall
  have h1 := (hall "A").mp (by decide)
  exact h1.2 (by decide)

/-- Claim C3 (amended): for a duplicate-free catalog, create_stocks removes
every matched id from offer_ids: afterwards the list holds exactly the
catalog ids matched by no inventory record, and a subsequent create_prices
call on the mutated list emits no entry whose offer id received a matched
stock entry. -/
theorem c3_offer_ids_consumed (I : List Watch) (C : List String) (hC : C.Nodup) :
    ∀ M R, seller.create_stocks_go I C = .ok (M, R) →
      seller.create_stocks I C = .ok (M ++ R.map (fun offer_id => ⟨offer_id, 0⟩), R) ∧
      (∀ x, x ∈ R ↔ (x ∈ C ∧ x ∉ I.map Watch.kod)) ∧
      (∀ p ∈ seller.create_prices I R,
        p.offer_id ∉ M.map seller.SellerStock.offer_id) := by
  intro M R hgo
  refine ⟨?_, seller_go_rem_iff I C hC M R hgo, ?_⟩
  · rw [seller.create_stocks, hgo]
  · intro p hp hpM
    obtain ⟨hpR, hpI⟩ := seller_create_prices_mem I R p hp
    obtain ⟨hpC, hpnotI⟩ := (seller_go_rem_iff I C hC M R hgo p.offer_id).mp hpR
    exact hpnotI hpI

/-- Witness for the amended C3 at a concrete duplicate-free catalog. -/
theorem c3_offer_ids_consumed_witness :
    (["A", "B"] : List String).Nodup ∧
    seller.create_stocks_go [(⟨"A", "5", "x"⟩ : Watch)] ["A", "B"] =
      .ok ([⟨"A", 5⟩], ["B"]) ∧
    (seller.create_stocks [(⟨"A", "5", "x"⟩ : Watch)] ["A", "B"] =
        .ok (([⟨"A", 5⟩] : List seller.SellerStock) ++
          (["B"] : List String).map (fun offer_id => ⟨offer_id, 0⟩), ["B"]) ∧
      (∀ x, x ∈ (["B"] : List String) ↔
        (x ∈ (["A", "B"] : List String) ∧
          x ∉ ([(⟨"A", "5", "x"⟩ : Watch)] : List Watch).map Watch.kod)) ∧
      (∀ p ∈ seller.create_prices [(⟨"A", "5", "x"⟩ : Watch)] ["B"],
        p.offer_id ∉ ([⟨"A", 5⟩] : List seller.SellerStock).map
          seller.SellerStock.offer_id)) :=
  ⟨by decide, by decide,
    c3_offer_ids_consumed [(⟨"A", "5", "x"⟩ : Watch)] ["A", "B"] (by decide)
      [⟨"A", 5⟩] ["B"] (by decide)⟩

theorem seller_create_prices_eq (I : List Watch) (C : List String) :
    seller.create_prices I C =
      (I.filter (fun w => decide (w.kod ∈ C))).map
        (fun w => ⟨"UNKNOWN", "RUB", w.kod, "0", seller.price_conversion w.tsena⟩) := by
  induction I with
  | nil => rfl
  | cons w ws ih =>
    by_cases hmem : w.kod ∈ C <;>
      simp [seller.create_prices, List.filter_cons, hmem, ih]

theorem market_create_prices_mem :
    ∀ (I : List Watch) (C : List String) (ps : List market.MarketPrice),
      market.create_prices I C = .ok ps →
      ∀ p ∈ ps, p.id ∈ C ∧ p.id ∈ I.map Watch.kod := by
  intro I
  induction I with
  | nil =>
    intro C ps h p hp
    rw [market.create_prices] at h
    injection h with h
    subst h
    simp at hp
  | cons w ws ih =>
    intro C ps h p hp
    rw [market.create_prices] at h
    by_cases hmem : w.kod ∈ C
    · rw [if_pos hmem] at h
      cases hv : pyInt (seller.price_conversion w.tsena) with
      | none =>
        rw [hv] at h
        cases h
      | some v =>
        rw [hv] at h
        cases hrec : market.create_prices ws C with
        | error e =>
          rw [hrec] at h
          cases h
        | ok ps2 =>
          rw [hrec] at h
          injection h with h
          subst h
          rcases List.mem_cons.mp hp with rfl | hp2
          · exact ⟨hmem, by simp⟩
          · obtain ⟨h1, h2⟩ := ih C ps2 hrec p hp2
            exact ⟨h1, by simp [h2]⟩
    · rw [if_neg hmem] at h
      obtain ⟨h1, h2⟩ := ih C ps h p hp
      exact ⟨h1, by simp [h2]⟩

theorem market_create_prices_forall2 :
    ∀ (I : List Watch) (C : List String) (ps : List market.MarketPrice),
      market.create_prices I C = .ok ps →
      List.Forall₂
        (fun (w : Watch) (p : market.MarketPrice) => p.id = w.kod ∧
          pyInt (seller.price_conversion w.tsena) = some p.price.value ∧
          p.price.currencyId = "RUR")
        (I.filter (fun w => decide (w.kod ∈ C))) ps := by
  intro I
  induction I with
  | nil =>
    intro C ps h
    rw [market.create_prices] at h
    injection h with h
    subst h
    exact List.Forall₂.nil
  | cons w ws ih =>
    intro C ps h
    rw [market.create_prices] at h
    by_cases hmem : w.kod ∈ C
    · rw [if_pos hmem] at h
      cases hv : pyInt (seller.price_conversion w.tsena) with
      | none =>
        rw [hv] at h
        cases h
      | some v =>
        rw [hv] at h
        cases hrec : market.create_prices ws C with
        | error e =>
          rw [hrec] at h
          cases h
        | ok ps2 =>
          rw [hrec] at h
          injection h with h
          subst h
          rw [List.filter_cons, if_pos (by simpa using hmem)]
          exact List.Forall₂.cons ⟨rfl, hv, rfl⟩ (ih C ps2 hrec)
    · rw [if_neg hmem] at h
      rw [List.filter_cons, if_neg (by simpa using hmem)]
      exact ih C ps h

theorem market_prices_map_kod (l1 : List Watch) (l2 : List market.MarketPrice)
    (hf : List.Forall₂
      (fun (w : Watch) (p : market.MarketPrice) => p.id = w.kod ∧
        pyInt (seller.price_conversion w.tsena) = some p.price.value ∧
        p.price.currencyId = "RUR") l1 l2) :
    l2.map market.MarketPrice.id = l1.map Watch.kod := by
  induction hf with
  | nil => rfl
  | cons ha _ ih => simp [ha.1, ih]

/-- Claim C6: both price reconciliations emit an entry exactly for each
inventory record whose stringified code is in the catalog list — the seller
output equals the filter-and-map of the matching records and the market
output (on success) corresponds one-to-one, in order, to the matching
records, its entry ids being exactly their codes — so every output offer id
lies in the catalog and among the inventory codes; nothing is synthesized
for catalog ids absent from the inventory, and records absent from the
catalog are skipped. -/
theorem c6_price_subsetting (I : List Watch) (C : List String) :
    (∀ p ∈ seller.create_prices I C, p.offer_id ∈ C ∧ p.offer_id ∈ I.map Watch.kod) ∧
    seller.create_prices I C =
      (I.filter (fun w => decide (w.kod ∈ C))).map
        (fun w => ⟨"UNKNOWN", "RUB", w.kod, "0", seller.price_conversion w.tsena⟩) ∧
    (∀ ps, market.create_prices I C = .ok ps →
      ∀ p ∈ ps, p.id ∈ C ∧ p.id ∈ I.map Watch.kod) ∧
    (∀ ps, market.create_prices I C = .ok ps →
      List.Forall₂
        (fun (w : Watch) (p : market.MarketPrice) => p.id = w.kod ∧
          pyInt (seller.price_conversion w.tsena) = some p.price.value ∧
          p.price.currencyId = "RUR")
        (I.filter (fun w => decide (w.kod ∈ C))) ps ∧
      ps.map market.MarketPrice.id =
        (I.filter (fun w => decide (w.kod ∈ C))).map Watch.kod) :=
  ⟨fun p hp => seller_create_prices_mem I C p hp,
   seller_create_prices_eq I C,
   fun ps hps p hp => market_create_prices_mem I C ps hps p hp,
   fun ps hps =>
     ⟨market_create_prices_forall2 I C ps hps,
      market_prices_map_kod _ ps (market_create_prices_forall2 I C ps hps)⟩⟩

/-- Witness for C6 at a concrete inventory and catalog. -/
theorem c6_price_subsetting_witness :
    ((⟨"UNKNOWN", "RUB", "A", "0", "9"⟩ : seller.SellerPrice) ∈
        seller.create_prices [(⟨"A", "5", "9.0"⟩ : Watch)] ["A"]) ∧
    ((⟨"UNKNOWN", "RUB", "A", "0", "9"⟩ : seller.SellerPrice).offer_id ∈
        (["A"] : List String) ∧
      (⟨"UNKNOWN", "RUB", "A", "0", "9"⟩ : seller.SellerPrice).offer_id ∈
        ([(⟨"A", "5", "9.0"⟩ : Watch)] : List Watch).map Watch.kod) ∧
    (market.create_prices [(⟨"A", "5", "9.0"⟩ : Watch)] ["A"] =
      .ok [⟨"A", ⟨9, "RUR"⟩⟩]) ∧
    ((⟨"A", ⟨9, "RUR"⟩⟩ : market.MarketPrice).id ∈ (["A"] : List String) ∧
      (⟨"A", ⟨9, "RUR"⟩⟩ : market.MarketPrice).id ∈
        ([(⟨"A", "5", "9.0"⟩ : Watch)] : List Watch).map Watch.kod) ∧
    (List.Forall₂
        (fun (w : Watch) (p : market.MarketPrice) => p.id = w.kod ∧
          pyInt (seller.price_conversion w.tsena) = some p.price.value ∧
          p.price.currencyId = "RUR")
        (([(⟨"A", "5", "9.0"⟩ : Watch)] : List Watch).filter
          (fun w => decide (w.kod ∈ (["A"] : List String))))
        [⟨"A", ⟨9, "RUR"⟩⟩] ∧
      ([(⟨"A", ⟨9, "RUR"⟩⟩ : market.MarketPrice)] : List market.MarketPrice).map
          market.MarketPrice.id =
        (([(⟨"A", "5", "9.0"⟩ : Watch)] : List Watch).filter
          (fun w => decide (w.kod ∈ (["A"] : List String)))).map Watch.kod) :=
  ⟨by decide,
    (c6_price_subsetting [(⟨"A", "5", "9.0"⟩ : Watch)] ["A"]).1 _ (by decide),
    by decide,
    (c6_price_subsetting [(⟨"A", "5", "9.0"⟩ : Watch)] ["A"]).2.2.1
      [⟨"A", ⟨9, "RUR"⟩⟩] (by decide) ⟨"A", ⟨9, "RUR"⟩⟩ (by decide),
    (c6_price_subsetting [(⟨"A", "5", "9.0"⟩ : Watch)] ["A"]).2.2.2
      [⟨"A", ⟨9, "RUR"⟩⟩] (by decide)⟩

theorem market_go_items (w d : String) :
    ∀ (I : List Watch) (C : List String) (M : List market.MarketStock) (R : List String),
      market.create_stocks_go w d I C = .ok (M, R) →
      ∀ e ∈ M, ∃ c, e.items = [⟨c, "FIT", d⟩] := by
  intro I
  induction I with
  | nil =>
    intro C M R h e he
    rw [market.create_stocks_go] at h
    injection h with h
    injection h with h1 h2
    subst h1
    simp at he
  | cons wa ws ih =>
    intro C M R h e he
    rw [market.create_stocks_go] at h
    by_cases hmem : wa.kod ∈ C
    · rw [if_pos hmem] at h
      cases hq : normalizeQuantity wa.kolichestvo with
      | error er =>
        rw [hq] at h
        cases h
      | ok stock =>
        rw [hq] at h
        cases hgo : market.create_stocks_go w d ws (C.erase wa.kod) with
        | error er =>
          rw [hgo] at h
          cases h
        | ok p =>
          obtain ⟨M2, R2⟩ := p
          rw [hgo] at h
          injection h with h
          injection h with h1 h2
          subst h1
          rcases List.mem_cons.mp he with rfl | he2
          · exact ⟨stock, rfl⟩
          · exact ih (C.erase wa.kod) M2 R2 hgo e he2
    · rw [if_neg hmem] at h
      exact ih C M R h e he

/-- Claim C9 counterexample: the seller variant's stock entries carry no
timestamp at all — the dict built at seller.py line 209 has exactly the keys
offer_id and stock, so the claim fails for the seller platform. -/
theorem c9_counterexample :
    seller.create_stocks [(⟨"A", "5", "x"⟩ : Watch)] ["A"] = .ok ([⟨"A", 5⟩], []) ∧
    seller.SellerStock.keys = ["offer_id", "stock"] ∧
    "timestamp" ∉ seller.SellerStock.keys ∧
    "updatedAt" ∉ seller.SellerStock.keys :=
  ⟨by decide, rfl, by decide, by decide⟩

/-- Claim C9 (amended): only the market variant stamps entries: every emitted
market entry, matched or zero-filled, carries in its single FIT items element
the one timestamp string computed at call start (utcnow at second precision
with a Z suffix, market.py line 200, the `d` parameter here); the seller
variant emits no timestamp at all. -/
theorem c9_market_timestamp (I : List Watch) (C : List String) (w d : String) :
    ∀ out rem, market.create_stocks I C w d = .ok (out, rem) →
      ∀ e ∈ out, ∃ c, e.items = [⟨c, "FIT", d⟩] := by
  intro out rem h e he
  rw [market.create_stocks] at h
  cases hgo : market.create_stocks_go w d I C with
  | error er =>
    rw [hgo] at h
    cases h
  | ok p =>
    obtain ⟨M, R⟩ := p
    rw [hgo] at h
    injection h with h
    injection h with h1 h2
    subst h1
    rcases List.mem_append.mp he with heM | heR
    · exact market_go_items w d I C M R hgo e heM
    · obtain ⟨oid, hoid, rfl⟩ := List.mem_map.mp heR
      exact ⟨0, rfl⟩

/-- Witness for the amended C9 at a concrete call. -/
theorem c9_market_timestamp_witness :
    market.create_stocks [(⟨"A", "5", "x"⟩ : Watch)] ["A", "B"] "7" "T" =
      .ok ([⟨"A", "7", [⟨5, "FIT", "T"⟩]⟩, ⟨"B", "7", [⟨0, "FIT", "T"⟩]⟩], ["B"]) ∧
    (⟨"A", "7", [⟨5, "FIT", "T"⟩]⟩ : market.MarketStock) ∈
      ([⟨"A", "7", [⟨5, "FIT", "T"⟩]⟩, ⟨"B", "7", [⟨0, "FIT", "T"⟩]⟩] :
        List market.MarketStock) ∧
    (∃ c, (⟨"A", "7", [⟨5, "FIT", "T"⟩]⟩ : market.MarketStock).items = [⟨c, "FIT", "T"⟩]) :=
  ⟨by decide, by decide,
    c9_market_timestamp [(⟨"A", "5", "x"⟩ : Watch)] ["A", "B"] "7" "T"
      [⟨"A", "7", [⟨5, "FIT", "T"⟩]⟩, ⟨"B", "7", [⟨0, "FIT", "T"⟩]⟩] ["B"] (by decide)
      ⟨"A", "7", [⟨5, "FIT", "T"⟩]⟩ (by decide)⟩

theorem normalizeQuantity_nonneg (s : String)
    (h : s = ">10" ∨ s = "1" ∨ ∀ n, pyInt s = some n → 0 ≤ n)
    (v : Int) (hv : normalizeQuantity s = .ok v) : 0 ≤ v := by
  rw [normalizeQuantity] at hv
  by_cases h1 : s = ">10"
  · rw [if_pos h1] at hv
    injection hv with hv
    omega
  · rw [if_neg h1] at hv
    by_cases h2 : s = "1"
    · rw [if_pos h2] at hv
      injection hv with hv
      omega
    · rw [if_neg h2] at hv
      cases hp : pyInt s with
      | none =>
        rw [hp] at hv
        cases hv
      | some n =>
        rw [hp] at hv
        injection hv with hv
        subst hv
        rcases h with h | h | h
        · exact absurd h h1
        · exact absurd h h2
        · exact h n hp

theorem seller_go_nonneg :
    ∀ (I : List Watch), (∀ wa ∈ I, quantityNonneg wa) →
      ∀ (C : List String) M R, seller.create_stocks_go I C = .ok (M, R) →
        ∀ e ∈ M, 0 ≤ e.stock := by
  intro I
  induction I with
  | nil =>
    intro hI C M R h e he
    rw [seller.create_stocks_go] at h
    injection h with h
    injection h with h1 h2
    subst h1
    simp at he
  | cons wa ws ih =>
    intro hI C M R h e he
    rw [seller.create_stocks_go] at h
    by_cases hmem : wa.kod ∈ C
    · rw [if_pos hmem] at h
      cases hq : normalizeQuantity wa.kolichestvo with
      | error er =>
        rw [hq] at h
        cases h
      | ok stock =>
        rw [hq] at h
        cases hgo : seller.create_stocks_go ws (C.erase wa.kod) with
        | error er =>
          rw [hgo] at h
          cases h
        | ok p =>
          obtain ⟨M2, R2⟩ := p
          rw [hgo] at h
          injection h with h
          injection h with h1 h2
          subst h1
          rcases List.mem_cons.mp he with rfl | he2
          · exact normalizeQuantity_nonneg wa.kolichestvo
              (hI wa (List.mem_cons_self wa ws)) stock hq
          · exact ih (fun v hv => hI v (List.mem_cons_of_mem wa hv))
              (C.erase wa.kod) M2 R2 hgo e he2
    · rw [if_neg hmem] at h
      exact ih (fun v hv => hI v (List.mem_cons_of_mem wa hv)) C M R h e he

theorem market_go_nonneg (w d : String) :
    ∀ (I : List Watch), (∀ wa ∈ I, quantityNonneg wa) →
      ∀ (C : List String) M R, market.create_stocks_go w d I C = .ok (M, R) →
        ∀ e ∈ M, ∀ it ∈ e.items, 0 ≤ it.count := by
  intro I
  induction I with
  | nil =>
    intro hI C M R h e he
    rw [market.create_stocks_go] at h
    injection h with h
    injection h with h1 h2
    subst h1
    simp at he
  | cons wa ws ih =>
    intro hI C M R h e he
    rw [market.create_stocks_go] at h
    by_cases hmem : wa.kod ∈ C
    · rw [if_pos hmem] at h
      cases hq : normalizeQuantity wa.kolichestvo with
      | error er =>
        rw [hq] at h
        cases h
      | ok stock =>
        rw [hq] at h
        cases hgo : market.create_stocks_go w d ws (C.erase wa.kod) with
        | error er =>
          rw [hgo] at h
          cases h
        | ok p =>
          obtain ⟨M2, R2⟩ := p
          rw [hgo] at h
          injection h with h
          injection h with h1 h2
          subst h1
          rcases List.mem_cons.mp he with rfl | he2
          · intro it hit
            rw [List.mem_singleton] at hit
            subst hit
            exact normalizeQuantity_nonneg wa.kolichestvo
              (hI wa (List.mem_cons_self wa ws)) stock hq
          · exact ih (fun v hv => hI v (List.mem_cons_of_mem wa hv))
              (C.erase wa.kod) M2 R2 hgo e he2
    · rw [if_neg hmem] at h
      exact ih (fun v hv => hI v (List.mem_cons_of_mem wa hv)) C M R h e he

/-- Claim C10 counterexample: a quantity string that Python parses as a
negative integer is passed straight through, so the emitted entry carries the
negative count -5. -/
theorem c10_counterexample :
    seller.create_stocks [(⟨"A", "-5", "x"⟩ : Watch)] ["A"] =
      .ok ([⟨"A", -5⟩], []) ∧ (-5 : Int) < 0 :=
  ⟨by decide, by decide⟩

/-- Claim C10 (amended): whenever every inventory quantity is one of the two
literal markers or parses to a non-negative integer, every entry emitted by
either create_stocks variant carries a non-negative count (zero-fill entries
always carry 0). -/
theorem c10_nonneg_counts (I : List Watch) (C : List String)
    (hI : ∀ wa ∈ I, quantityNonneg wa) :
    (∀ out rem, seller.create_stocks I C = .ok (out, rem) →
      ∀ e ∈ out, 0 ≤ e.stock) ∧
    (∀ w d out rem, market.create_stocks I C w d = .ok (out, rem) →
      ∀ e ∈ out, ∀ it ∈ e.items, 0 ≤ it.count) := by
  constructor
  · intro out rem h e he
    rw [seller.create_stocks] at h
    cases hgo : seller.create_stocks_go I C with
    | error er =>
      rw [hgo] at h
      cases h
    | ok p =>
      obtain ⟨M, R⟩ := p
      rw [hgo] at h
      injection h with h
      injection h with h1 h2
      subst h1
      rcases List.mem_append.mp he with heM | heR
      · exact seller_go_nonneg I hI C M R hgo e heM
      · obtain ⟨oid, hoid, rfl⟩ := List.mem_map.mp heR
        exact le_refl 0
  · intro w d out rem h e he
    rw [market.create_stocks] at h
    cases hgo : market.create_stocks_go w d I C with
    | error er =>
      rw [hgo] at h
      cases h
    | ok p =>
      obtain ⟨M, R⟩ := p
      rw [hgo] at h
      injection h with h
      injection h with h1 h2
      subst h1
      rcases List.mem_append.mp he with heM | heR
      · exact market_go_nonneg w d I hI C M R hgo e heM
      · obtain ⟨oid, hoid, rfl⟩ := List.mem_map.mp heR
        intro it hit
        rw [List.mem_singleton] at hit
        subst hit
        exact le_refl 0

/-- Witness for the amended C10 at a concrete inventory and catalog. -/
theorem c10_nonneg_counts_witness :
    (∀ wa ∈ ([(⟨"A", ">10", "x"⟩ : Watch)] : List Watch), quantityNonneg wa) ∧
    ((∀ out rem,
        seller.create_stocks [(⟨"A", ">10", "x"⟩ : Watch)] ["A"] = .ok (out, rem) →
        ∀ e ∈ out, 0 ≤ e.stock) ∧
     (∀ w d out rem,
        market.create_stocks [(⟨"A", ">10", "x"⟩ : Watch)] ["A"] w d = .ok (out, rem) →
        ∀ e ∈ out, ∀ it ∈ e.items, 0 ≤ it.count)) := by
  have hq : ∀ wa ∈ ([(⟨"A", ">10", "x"⟩ : Watch)] : List Watch), quantityNonneg wa := by
    intro wa hwa
    rw [List.mem_singleton] at hwa
    subst hwa
    exact Or.inl rfl
  exact ⟨hq, c10_nonneg_counts [(⟨"A", ">10", "x"⟩ : Watch)] ["A"] hq⟩
